import Mathlib

/-!
Verification of the VizRank feature-subset ranking engine and circular
placement from `Orange/widgets/visualize/owlinearprojection.py`.

The combinatorial core (`state_count`, `iterate_states`, `compute_score`,
`before_running`, `_init_vizrank`, `CircularPlacement.get_components`) is
shallowly embedded below.  Python lists of indices become `List Nat`,
Python's `while True` generator loop becomes a fuel-indexed recursion
(`combList`), `itertools.permutations` becomes `pyPerms` (same positional
order), numpy float arithmetic becomes exact `ℚ`/`ℝ` arithmetic, and the
external sklearn calls (`NearestNeighbors.kneighbors`, `r2_score`) are
abstract parameters of the scoring function.
-/

namespace OWLinearProjection

/-- Constant `LinearProjectionVizRank.minK = 10`. -/
def minK : Nat := 10

/-- Model of `LinearProjectionVizRank.state_count`:
`factorial(n_all_attrs) // (2 * factorial(n_all_attrs - n_attrs) * n_attrs)`
with `n` = number of ranked attributes and `k` = `self.n_attrs`
(Python `//` is truncated division, as is `Nat` division). -/
def state_count (n k : Nat) : Nat :=
  n.factorial / (2 * (n - k).factorial * k)

/-- One pass of the in-place increment inside `iterate_states.combinations`:

    for up, _ in enumerate(s):
        s[up] += 1
        if up + 1 == len(s) or s[up] < s[up + 1]:
            break
        s[up] = up

`up` is the current position (the function is always entered with `up = 0`
and recurses in sync with the list position). -/
def bump : Nat → List Nat → List Nat
  | _, [] => []
  | _, [x] => [x + 1]
  | up, x :: y :: rest =>
    if x + 1 < y then (x + 1) :: y :: rest else up :: bump (up + 1) (y :: rest)

/-- The `combinations(n, s)` generator of `iterate_states`: yield `s`, run
`bump`, stop once the last entry equals `n` (`if s[-1] == n: break`), else
loop.  `fuel` bounds the number of yields; every theorem below either
fixes a concrete fuel or proves the run finishes within the given fuel. -/
def combList (n : Nat) : List Nat → Nat → List (List Nat)
  | _, 0 => []
  | s, fuel + 1 =>
    let t := bump 0 s
    s :: (if t.getLastD 0 = n then [] else combList n t fuel)

/-- Model of `itertools.permutations`, positional semantics and Python's output
order: for each index `i` in order, emit `l[i]` followed by the
permutations of the remaining entries (kept in their original order).
`fuel` is an upper bound on the recursion depth; `pyPerms` instantiates it
with the length of the list, which always suffices. -/
def pyPermsAux : Nat → List Nat → List (List Nat)
  | _, [] => [[]]
  | 0, _ :: _ => []
  | fuel + 1, x :: t =>
    (List.range (x :: t).length).flatMap fun i =>
      (pyPermsAux fuel ((x :: t).eraseIdx i)).map (((x :: t).getD i 0) :: ·)

/-- Model of `itertools.permutations` on a list (see `pyPermsAux`). -/
def pyPerms (l : List Nat) : List (List Nat) :=
  pyPermsAux l.length l

/-- The states yielded for one combination `c`:

    for p in islice(permutations(c[1:]), factorial(len(c) - 1) // 2):
        yield (c[0], ) + p
-/
def permBlock (c : List Nat) : List (List Nat) :=
  match c with
  | [] => []
  | c0 :: rest =>
    ((pyPerms rest).take (((c0 :: rest).length - 1).factorial / 2)).map (c0 :: ·)

/-- Model of `LinearProjectionVizRank.iterate_states(state)` as the list of yielded
candidate states.  `n = len(self.attrs)`, `k = self.n_attrs`; `state =
None` starts from `list(range(self.n_attrs))`.  `fuel` bounds the number
of combinations visited (see `combList`). -/
def iterate_states (n k : Nat) (state : Option (List Nat)) (fuel : Nat) :
    List (List Nat) :=
  let s := match state with
    | none => List.range k
    | some st => st
  (combList n s fuel).flatMap permBlock

/-- A full uninterrupted run of `iterate_states` started from `None`.
`n.choose k` combinations are visited in such a run, so that much fuel is
exactly enough (proved below). -/
def runStatesNone (n k : Nat) : List (List Nat) :=
  iterate_states n k none (n.choose k)

/-- Colex rank of a combination, offset by the starting position `i`:
`rankAux i [s₀, s₁, …] = C(s₀, i+1) + C(s₁, i+2) + …`.  Verification
device used to measure progress of the `combinations` loop. -/
def rankAux : Nat → List Nat → Nat
  | _, [] => 0
  | i, x :: rest => x.choose (i + 1) + rankAux (i + 1) rest

/-- Colex rank of a combination. -/
def rankL (s : List Nat) : Nat := rankAux 0 s

/-- A well-formed combination state: strictly increasing, of length `k`,
with entries below `n`.  The initial state `range k` is well formed and
`bump` preserves well-formedness until the loop stops. -/
def ValidComb (n k : Nat) (s : List Nat) : Prop :=
  s.Chain' (· < ·) ∧ s.length = k ∧ ∀ b ∈ s, b < n

/-! ### Model of `compute_score` (`LinearProjectionVizRank.compute_score`)

The dataset `master.data` is reduced to what the scoring code reads: its
row count and the color column.  The sklearn calls are external library
code, so they enter as abstract parameters: `proj` gives the embedded
2D row for each instance (`projection(data).X` has one row per data row)
and `knnInd`/`r2` stand for `NearestNeighbors(...).kneighbors` and
`r2_score`. -/

/-- The parts of an Orange `Table` that `compute_score` reads. -/
structure DataTable where
  nRows : Nat
  colorCol : Nat → ℚ

/-- Model of `column_data(data, attr_color, dtype=float)`: one value per table row
(the function returns a copy of the variable's column). -/
def column_data (t : DataTable) : List ℚ :=
  (List.range t.nRows).map t.colorCol

/-- Model of `np.sum(y[ind] == y.reshape(-1, 1))`: the number of (point, neighbor)
pairs whose color values agree.  Row `i` of `ind` lists the neighbor
indices of instance `i`. -/
def matchCount (y : List ℚ) (ind : List (List Nat)) : Nat :=
  ((y.zip ind).map (fun p => (p.2.filter (fun j => y.getD j 0 = p.1)).length)).sum

/-- Model of `np.mean(y[ind], axis=1)`: per-row mean of the neighbors' color values. -/
def neighborMeans (y : List ℚ) (ind : List (List Nat)) : List ℚ :=
  ind.map (fun row => (row.map (fun j => y.getD j 0)).sum / row.length)

/-- Model of `LinearProjectionVizRank.compute_score(state)` after the projection has
been applied: returns `none` (Python `None`) below the `minK` gate, else
the discrete or continuous score.  The two Python float divisions
`-np.sum(...) / n_neighbors / len(y)` are kept as two divisions. -/
def compute_score (t : DataTable) (isDiscrete : Bool)
    (proj : Nat → List ℚ) (knnInd : Nat → List (List Nat))
    (r2 : List ℚ → List ℚ → ℚ) : Option ℚ :=
  let ec : List (List ℚ) := (List.range t.nRows).map proj
  let y := column_data t
  if ec.length < minK then none
  else
    let n_neighbors := min minK (ec.length - 1)
    let ind := knnInd n_neighbors
    if isDiscrete then
      some ((-(matchCount y ind : ℚ)) / n_neighbors / y.length)
    else
      some ((-(r2 y (neighborMeans y ind))) * ((y.length : ℚ) / t.nRows))

/-- The spec's formula for the discrete score: the negative count of
matching-class (point, neighbor) pairs divided by (neighbors per point
times instance count), as a single fraction. -/
def specDiscreteScore (y : List ℚ) (ind : List (List Nat)) (nn : Nat) : ℚ :=
  -((∑ i ∈ Finset.range y.length,
      (((ind.getD i []).filter (fun j => y.getD j 0 = y.getD i 0)).length : ℚ)) /
    ((nn : ℚ) * (y.length : ℚ)))

/-- Modelled from the spec: the VizRank driver records a result for a
candidate only when `compute_score` produced one; a `None` score leaves
the accumulated result sequence unchanged and the search continues (the
driver loop lives in `Orange.widgets.visualize.utils`, outside this
file's source). -/
def add_result (results : List ℚ) : Option ℚ → List ℚ
  | none => results
  | some sc => results ++ [sc]

/-! ### Model of `before_running` / `_n_attrs_changed` -/

/-- The attributes of the VizRank dialog that `before_running` touches.
`saved_state`/`saved_progress`/`scores` live in the `VizRankDialog` base
class; `rank_rows` is the row count of `rank_model` (`rank_model.clear()`
empties it). -/
structure VizRankState where
  n_attrs : Nat
  last_run_n_attrs : Option Nat
  saved_state : Option (List Nat)
  saved_progress : Nat
  scores : List ℚ
  rank_rows : Nat

/-- Model of `LinearProjectionVizRank.before_running` (the spin-disable GUI call is
dropped; everything else is kept):

    if self.n_attrs != self.last_run_n_attrs:
        self.saved_state = None
        self.saved_progress = 0
    if self.saved_state is None:
        self.scores = []
        self.rank_model.clear()
    self.last_run_n_attrs = self.n_attrs
-/
def before_running (s : VizRankState) : VizRankState :=
  let s1 := if some s.n_attrs ≠ s.last_run_n_attrs then
    { s with saved_state := none, saved_progress := 0 } else s
  let s2 := if s1.saved_state = none then
    { s1 with scores := [], rank_rows := 0 } else s1
  { s2 with last_run_n_attrs := some s2.n_attrs }

/-! ### Model of `OWLinearProjection._init_vizrank` -/

/-- The widget state read by `_init_vizrank`, reduced to the quantities the
checks inspect.  `nUsableVars` is `len([v for v in continuous_variables if
v is not attr_color])`; `nValidInstances` is `len(data[valid_data])`;
`colorAllMissing` is `np.isnan(color column).all()`. -/
structure VizrankCtx where
  hasData : Bool
  hasColor : Bool
  colorIsContinuous : Bool
  placementIsLDA : Bool
  nUsableVars : Nat
  nValidInstances : Nat
  colorAllMissing : Bool

/-- Model of `OWLinearProjection._init_vizrank`: the `(is_enabled, msg)` pair the
method computes before calling `setToolTip(msg)` / `setEnabled(is_enabled)`.
The if-chain is kept in source order. -/
def init_vizrank (c : VizrankCtx) : Bool × String :=
  if c.hasData = false then (false, "There is no data.")
  else if c.hasColor = false then (false, "Color variable has to be selected")
  else if c.colorIsContinuous = true ∧ c.placementIsLDA = true then
    (false, "Suggest Features does not work for Linear Discriminant " ++
      "Analysis Projection when continuous color variable is selected.")
  else if c.nUsableVars < 3 then
    (false, "Not enough available continuous variables")
  else if c.nValidInstances < 2 then
    (false, "Not enough valid data instances")
  else (!c.colorAllMissing, "")

/-- Model of `LinearProjectionVizRank.check_preconditions`: the result of the base
class check (external `VizRankDialog.check_preconditions`) conjoined with
`master.btn_vizrank.isEnabled()`, which `_init_vizrank` set. -/
def check_preconditions (superOk : Bool) (c : VizrankCtx) : Bool :=
  superOk && (init_vizrank c).1

/-! ### Model of the `n_attrs` spin control -/

/-- Default of the `n_attrs = Setting(3)` attribute: the requested subset size. -/
def n_attrs_default : Nat := 3

/-- The lower bound passed to `gui.spin(box, self, "n_attrs", 3, …)`. -/
def n_attrs_min : Nat := 3

/-- Modelled from the spec: `gui.spin` (in `Orange.widgets.gui`, outside
this file's source) creates a spin control that clamps its value into
`[minv, maxv]`; the widget never reports a value outside those bounds. -/
def spin_value (minv maxv v : Nat) : Nat :=
  min maxv (max minv v)

/-! ### Model of `CircularPlacement.get_components` -/

/-- Model of `np.linspace(0, 2π, m, endpoint=False)`: `m` evenly spaced angles
starting at 0 with step `2π/m`. -/
noncomputable def linspace_angles (m : Nat) : List ℝ :=
  (List.range m).map fun i : Nat => 2 * Real.pi * (i : ℝ) / (m : ℝ)

/-- The `axes_angle` list computed by `CircularPlacement.get_components`
for `m` columns. -/
noncomputable def axes_angle (m : Nat) : List ℝ :=
  if m = 1 then [0]
  else if m = 2 then [0, Real.pi / 2]
  else linspace_angles m

/-- Model of `CircularPlacement.get_components`: the columns of
`np.vstack((np.cos(axes_angle), np.sin(axes_angle)))`, i.e. one 2D
direction vector per axis. -/
noncomputable def get_components (m : Nat) : List (ℝ × ℝ) :=
  (axes_angle m).map fun θ => (Real.cos θ, Real.sin θ)


/-! ### Lemmas about `bump` -/

theorem bump_length : ∀ (up : Nat) (l : List Nat), (bump up l).length = l.length
  | _, [] => rfl
  | _, [_] => rfl
  | up, x :: y :: rest => by
    simp only [bump]
    split
    · rfl
    · simpa using bump_length (up + 1) (y :: rest)

theorem bump_head?_ge (up x : Nat) (t : List Nat) (h : up ≤ x) :
    ∀ b, (bump up (x :: t)).head? = some b → up ≤ b := by
  intro b hb
  match t with
  | [] =>
    simp only [bump, List.head?, Option.some.injEq] at hb
    omega
  | y :: rest =>
    simp only [bump] at hb
    split at hb <;> simp only [List.head?, Option.some.injEq] at hb <;> omega

theorem bump_chain : ∀ (up x : Nat) (t : List Nat),
    (x :: t).Chain' (· < ·) → up ≤ x → (bump up (x :: t)).Chain' (· < ·)
  | _, _, [] => by
    intro _ _
    simp [bump]
  | up, x, y :: t => by
    intro hc hup
    have hxy : x < y := (List.chain'_cons.mp hc).1
    have hct : (y :: t).Chain' (· < ·) := (List.chain'_cons.mp hc).2
    simp only [bump]
    split
    · exact List.chain'_cons.mpr ⟨by omega, hct⟩
    · have hy : up + 1 ≤ y := by omega
      have ih := bump_chain (up + 1) y t hct hy
      have hhd := bump_head?_ge (up + 1) y t hy
      refine List.chain'_cons'.mpr ⟨?_, ih⟩
      intro b hb
      have := hhd b hb
      omega

theorem bump_ne_nil (up x : Nat) (t : List Nat) : bump up (x :: t) ≠ [] := by
  match t with
  | [] => simp [bump]
  | y :: rest =>
    simp only [bump]
    split <;> simp

theorem getLastD_irrel (x : Nat) (t : List Nat) (d e : Nat) :
    (x :: t).getLastD d = (x :: t).getLastD e := by
  simp only [List.getLastD_cons]

theorem bump_getLastD : ∀ (up x : Nat) (t : List Nat),
    (bump up (x :: t)).getLastD 0 ≤ (x :: t).getLastD 0 + 1
  | _, _, [] => by simp [bump]
  | up, x, y :: t => by
    simp only [bump]
    split
    · simp [List.getLastD_cons]
    · have ih := bump_getLastD (up + 1) y t
      rcases hz : bump (up + 1) (y :: t) with _ | ⟨z, m⟩
      · exact absurd hz (bump_ne_nil (up + 1) y t)
      · rw [hz] at ih
        calc (up :: z :: m).getLastD 0 = (z :: m).getLastD up := List.getLastD_cons 0 up (z :: m)
          _ = (z :: m).getLastD 0 := getLastD_irrel z m up 0
          _ ≤ (y :: t).getLastD 0 + 1 := ih
          _ = (x :: y :: t).getLastD 0 + 1 := by simp [List.getLastD_cons]

/-! ### Lemmas about sorted lists and `getLastD` -/

theorem mem_le_getLastD : ∀ (x : Nat) (t : List Nat),
    (x :: t).Chain' (· < ·) → ∀ b ∈ x :: t, b ≤ (x :: t).getLastD 0
  | _, [], _, b, hb => by
    simp only [List.mem_singleton] at hb
    simp [hb]
  | x, y :: t, hc, b, hb => by
    have hxy : x < y := (List.chain'_cons.mp hc).1
    have hct : (y :: t).Chain' (· < ·) := (List.chain'_cons.mp hc).2
    have hy := mem_le_getLastD y t hct
    rcases List.mem_cons.mp hb with hb | hb
    · have := hy y (List.mem_cons_self y t)
      simp only [List.getLastD_cons] at this ⊢
      omega
    · simpa [List.getLastD_cons] using hy b hb

theorem getLastD_mem : ∀ (x : Nat) (t : List Nat), (x :: t).getLastD 0 ∈ x :: t
  | _, [] => by simp
  | x, y :: t => by
    have := getLastD_mem y t
    simp only [List.getLastD_cons] at *
    exact List.mem_cons_of_mem x this

/-! ### Lemmas about `rankAux` -/

theorem rankAux_bump : ∀ (i x : Nat) (t : List Nat),
    (x :: t).Chain' (· < ·) →
    rankAux i (bump i (x :: t)) = rankAux i (x :: t) + x.choose i
  | i, x, [] => by
    intro _
    simp only [bump, rankAux]
    have := Nat.choose_succ_succ' x i
    omega
  | i, x, y :: t => by
    intro hc
    have hxy : x < y := (List.chain'_cons.mp hc).1
    have hct : (y :: t).Chain' (· < ·) := (List.chain'_cons.mp hc).2
    simp only [bump]
    split
    · simp only [rankAux]
      have := Nat.choose_succ_succ' x i
      omega
    · have hy : y = x + 1 := by omega
      have ih := rankAux_bump (i + 1) y t hct
      simp only [rankAux] at ih ⊢
      have h0 : i.choose (i + 1) = 0 := Nat.choose_eq_zero_of_lt (by omega)
      have hp : y.choose (i + 1) = x.choose i + x.choose (i + 1) := by
        rw [hy]
        exact Nat.choose_succ_succ' x i
      omega

theorem rankAux_add_choose_le : ∀ (i x : Nat) (t : List Nat) (n : Nat),
    (x :: t).Chain' (· < ·) → i ≤ x → (∀ b ∈ x :: t, b < n) →
    rankAux i (x :: t) + x.choose i ≤ n.choose (i + (x :: t).length)
  | i, x, [], n => by
    intro _ hix hlt
    have hxn : x < n := hlt x (List.mem_cons_self x [])
    simp only [rankAux, List.length_cons, List.length_nil, Nat.zero_add]
    have h1 : (x + 1).choose (i + 1) = x.choose i + x.choose (i + 1) :=
      Nat.choose_succ_succ' x i
    have h2 : (x + 1).choose (i + 1) ≤ n.choose (i + 1) :=
      Nat.choose_le_choose (i + 1) (by omega)
    omega
  | i, x, y :: t, n => by
    intro hc hix hlt
    have hxy : x < y := (List.chain'_cons.mp hc).1
    have hct : (y :: t).Chain' (· < ·) := (List.chain'_cons.mp hc).2
    have ih := rankAux_add_choose_le (i + 1) y t n hct (by omega)
      (fun b hb => hlt b (List.mem_cons_of_mem x hb))
    simp only [rankAux, List.length_cons] at ih ⊢
    have h1 : (x + 1).choose (i + 1) = x.choose i + x.choose (i + 1) :=
      Nat.choose_succ_succ' x i
    have h2 : (x + 1).choose (i + 1) ≤ y.choose (i + 1) :=
      Nat.choose_le_choose (i + 1) (by omega)
    have h3 : i + 1 + (t.length + 1) = i + (t.length + 1 + 1) := by omega
    rw [h3] at ih
    omega

theorem rankAux_lt (i x : Nat) (t : List Nat) (n : Nat)
    (hc : (x :: t).Chain' (· < ·)) (hix : i ≤ x) (hlt : ∀ b ∈ x :: t, b < n) :
    rankAux i (x :: t) < n.choose (i + (x :: t).length) := by
  have h := rankAux_add_choose_le i x t n hc hix hlt
  have hp : 0 < x.choose i := Nat.choose_pos hix
  omega

theorem choose_getLastD_le_rankAux : ∀ (i x : Nat) (t : List Nat),
    ((x :: t).getLastD 0).choose (i + (x :: t).length) ≤ rankAux i (x :: t)
  | i, x, [] => by simp [rankAux]
  | i, x, y :: t => by
    have ih := choose_getLastD_le_rankAux (i + 1) y t
    simp only [rankAux, List.getLastD_cons, List.length_cons] at ih ⊢
    have h3 : i + 1 + (t.length + 1) = i + (t.length + 1 + 1) := by omega
    rw [h3] at ih
    omega

/-! ### The combination chain -/


theorem rankL_lt_choose (n k : Nat) (x : Nat) (t : List Nat)
    (hv : ValidComb n k (x :: t)) : rankL (x :: t) < n.choose k := by
  have h := rankAux_lt 0 x t n hv.1 (Nat.zero_le x) hv.2.2
  rw [Nat.zero_add, hv.2.1] at h
  exact h

theorem stop_rank (n k : Nat) (x : Nat) (t : List Nat)
    (hv : ValidComb n k (x :: t)) (hstop : (bump 0 (x :: t)).getLastD 0 = n) :
    rankL (x :: t) + 1 = n.choose k := by
  have hinc : rankAux 0 (bump 0 (x :: t)) = rankAux 0 (x :: t) + 1 := by
    have := rankAux_bump 0 x t hv.1
    simpa [Nat.choose_zero_right] using this
  rcases hz : bump 0 (x :: t) with _ | ⟨z, m⟩
  · exact absurd hz (bump_ne_nil 0 x t)
  · have hlen : (z :: m).length = k := by
      have := bump_length 0 (x :: t)
      rw [hz] at this
      rw [this, hv.2.1]
    have hlow := choose_getLastD_le_rankAux 0 z m
    rw [hz] at hstop hinc
    rw [hstop, hlen, Nat.zero_add, hinc] at hlow
    have hup := rankL_lt_choose n k x t hv
    unfold rankL at *
    omega

theorem go_step (n k : Nat) (x : Nat) (t : List Nat)
    (hv : ValidComb n k (x :: t)) (hgo : (bump 0 (x :: t)).getLastD 0 ≠ n) :
    ValidComb n k (bump 0 (x :: t)) ∧
    rankL (bump 0 (x :: t)) = rankL (x :: t) + 1 ∧
    rankL (x :: t) + 1 < n.choose k := by
  have hchain : (bump 0 (x :: t)).Chain' (· < ·) :=
    bump_chain 0 x t hv.1 (Nat.zero_le x)
  have hlen : (bump 0 (x :: t)).length = k := by
    rw [bump_length 0 (x :: t), hv.2.1]
  have hlast : (x :: t).getLastD 0 < n :=
    hv.2.2 _ (getLastD_mem x t)
  have hmem : ∀ b ∈ bump 0 (x :: t), b < n := by
    rcases hz : bump 0 (x :: t) with _ | ⟨z, m⟩
    · exact absurd hz (bump_ne_nil 0 x t)
    · intro b hb
      have h1 : b ≤ (z :: m).getLastD 0 := by
        refine mem_le_getLastD z m ?_ b hb
        rw [← hz]; exact hchain
      have h2 : (z :: m).getLastD 0 ≤ (x :: t).getLastD 0 + 1 := by
        rw [← hz]; exact bump_getLastD 0 x t
      have h3 : (z :: m).getLastD 0 ≠ n := by rw [← hz]; exact hgo
      omega
  have hinc : rankL (bump 0 (x :: t)) = rankL (x :: t) + 1 := by
    have := rankAux_bump 0 x t hv.1
    unfold rankL
    simpa [Nat.choose_zero_right] using this
  have hvb : ValidComb n k (bump 0 (x :: t)) := ⟨hchain, hlen, hmem⟩
  refine ⟨hvb, hinc, ?_⟩
  rcases hz : bump 0 (x :: t) with _ | ⟨z, m⟩
  · exact absurd hz (bump_ne_nil 0 x t)
  · have := rankL_lt_choose n k z m (hz ▸ hvb)
    rw [hz] at hinc
    omega

theorem combList_props : ∀ (m n k : Nat) (s : List Nat) (fuel : Nat),
    1 ≤ k → ValidComb n k s → rankL s + m = n.choose k → m ≤ fuel →
    (combList n s fuel).length = m ∧
    (∀ fuel2, m ≤ fuel2 → combList n s fuel2 = combList n s fuel) ∧
    (∀ c ∈ combList n s fuel, ValidComb n k c ∧ rankL s ≤ rankL c) ∧
    (combList n s fuel).Chain' (fun a b => rankL a < rankL b)
  | 0, n, k, s, fuel, hk, hv, hrank, _ => by
    exfalso
    obtain ⟨x, t, rfl⟩ : ∃ x t, s = x :: t := by
      cases s with
      | nil =>
        exfalso
        have h0 := hv.2.1
        simp only [List.length_nil] at h0
        omega
      | cons a b => exact ⟨a, b, rfl⟩
    have := rankL_lt_choose n k x t hv
    omega
  | m + 1, n, k, s, fuel, hk, hv, hrank, hfuel => by
    obtain ⟨x, t, rfl⟩ : ∃ x t, s = x :: t := by
      cases s with
      | nil =>
        exfalso
        have h0 := hv.2.1
        simp only [List.length_nil] at h0
        omega
      | cons a b => exact ⟨a, b, rfl⟩
    match fuel, hfuel with
    | fuel + 1, _ =>
    by_cases hstop : (bump 0 (x :: t)).getLastD 0 = n
    · have h1 := stop_rank n k x t hv hstop
      have hm : m = 0 := by omega
      subst hm
      have hcl : ∀ f2, combList n (x :: t) (f2 + 1) = [x :: t] := by
        intro f2
        show (x :: t) :: (if (bump 0 (x :: t)).getLastD 0 = n then []
          else combList n (bump 0 (x :: t)) f2) = [x :: t]
        rw [if_pos hstop]
      refine ⟨?_, ?_, ?_, ?_⟩
      · rw [hcl fuel]; rfl
      · intro fuel2 hf2
        match fuel2, hf2 with
        | f2 + 1, _ => rw [hcl f2, hcl fuel]
      · intro c hc
        rw [hcl fuel] at hc
        simp only [List.mem_singleton] at hc
        subst hc
        exact ⟨hv, Nat.le_refl _⟩
      · rw [hcl fuel]
        exact List.chain'_singleton _
    · obtain ⟨hv2, hr2, hlt2⟩ := go_step n k x t hv hstop
      have ih := combList_props m n k (bump 0 (x :: t)) fuel hk hv2
        (by omega) (by omega)
      have hcl : ∀ f2, combList n (x :: t) (f2 + 1) =
          (x :: t) :: combList n (bump 0 (x :: t)) f2 := by
        intro f2
        show (x :: t) :: (if (bump 0 (x :: t)).getLastD 0 = n then []
          else combList n (bump 0 (x :: t)) f2) = _
        rw [if_neg hstop]
      refine ⟨?_, ?_, ?_, ?_⟩
      · rw [hcl fuel]
        simp [ih.1]
      · intro fuel2 hf2
        match fuel2, hf2 with
        | f2 + 1, _ =>
          rw [hcl f2, hcl fuel, ih.2.1 f2 (by omega)]
      · intro c hc
        rw [hcl fuel] at hc
        rcases List.mem_cons.mp hc with hc | hc
        · subst hc
          exact ⟨hv, Nat.le_refl _⟩
        · obtain ⟨hvc, hrc⟩ := ih.2.2.1 c hc
          exact ⟨hvc, by omega⟩
      · rw [hcl fuel]
        refine List.chain'_cons'.mpr ⟨?_, ih.2.2.2⟩
        intro b hb
        have hbmem : b ∈ combList n (bump 0 (x :: t)) fuel :=
          List.mem_of_mem_head? hb
        have := (ih.2.2.1 b hbmem).2
        omega

theorem validComb_range (n k : Nat) (hkn : k ≤ n) : ValidComb n k (List.range k) := by
  refine ⟨(List.chain'_iff_pairwise).mpr (List.pairwise_lt_range k), List.length_range k, ?_⟩
  intro b hb
  have := List.mem_range.mp hb
  omega

theorem rankAux_range' : ∀ (b a i : Nat), a ≤ i → rankAux i (List.range' a b) = 0
  | 0, _, _, _ => rfl
  | b + 1, a, i, h => by
    rw [List.range'_succ]
    simp only [rankAux]
    rw [Nat.choose_eq_zero_of_lt (by omega), rankAux_range' b (a + 1) (i + 1) (by omega)]

theorem rankL_range (k : Nat) : rankL (List.range k) = 0 := by
  unfold rankL
  rw [List.range_eq_range']
  exact rankAux_range' k 0 0 (Nat.le_refl 0)

theorem chain_rank_nodup (L : List (List Nat))
    (h : L.Chain' (fun a b => rankL a < rankL b)) : L.Nodup := by
  haveI : IsTrans (List Nat) (fun a b => rankL a < rankL b) :=
    ⟨fun _ _ _ h1 h2 => lt_trans h1 h2⟩
  have hp := (List.chain'_iff_pairwise).mp h
  exact hp.imp_of_mem fun _ _ hab => fun he => by
    subst he
    exact absurd hab (lt_irrefl _)

theorem combList_suffix : ∀ (m n k : Nat) (s : List Nat) (fuel : Nat),
    1 ≤ k → ValidComb n k s → rankL s + m = n.choose k → m ≤ fuel →
    ∀ c ∈ combList n s fuel,
      combList n c fuel = (combList n s fuel).drop ((combList n s fuel).indexOf c)
  | 0, n, k, s, fuel, hk, hv, hrank, _ => by
    exfalso
    obtain ⟨x, t, rfl⟩ : ∃ x t, s = x :: t := by
      cases s with
      | nil =>
        exfalso
        have h0 := hv.2.1
        simp only [List.length_nil] at h0
        omega
      | cons a b => exact ⟨a, b, rfl⟩
    have := rankL_lt_choose n k x t hv
    omega
  | m + 1, n, k, s, fuel, hk, hv, hrank, hfuel => by
    obtain ⟨x, t, rfl⟩ : ∃ x t, s = x :: t := by
      cases s with
      | nil =>
        exfalso
        have h0 := hv.2.1
        simp only [List.length_nil] at h0
        omega
      | cons a b => exact ⟨a, b, rfl⟩
    match fuel, hfuel with
    | fuel + 1, _ =>
    intro c hc
    by_cases hstop : (bump 0 (x :: t)).getLastD 0 = n
    · have hcl : ∀ f2, combList n (x :: t) (f2 + 1) = [x :: t] := by
        intro f2
        show (x :: t) :: (if (bump 0 (x :: t)).getLastD 0 = n then []
          else combList n (bump 0 (x :: t)) f2) = [x :: t]
        rw [if_pos hstop]
      rw [hcl fuel] at hc ⊢
      simp only [List.mem_singleton] at hc
      subst hc
      have h0 : List.indexOf (x :: t) [x :: t] = 0 := by
        simp [List.indexOf_cons]
      rw [h0, List.drop_zero, hcl fuel]
    · obtain ⟨hv2, hr2, hlt2⟩ := go_step n k x t hv hstop
      have hprops := combList_props m n k (bump 0 (x :: t)) fuel hk hv2
        (by omega) (by omega)
      have hcl : ∀ f2, combList n (x :: t) (f2 + 1) =
          (x :: t) :: combList n (bump 0 (x :: t)) f2 := by
        intro f2
        show (x :: t) :: (if (bump 0 (x :: t)).getLastD 0 = n then []
          else combList n (bump 0 (x :: t)) f2) = _
        rw [if_neg hstop]
      rw [hcl fuel] at hc ⊢
      rcases List.mem_cons.mp hc with hc | hc
      · subst hc
        have h0 : List.indexOf (x :: t)
            ((x :: t) :: combList n (bump 0 (x :: t)) fuel) = 0 := by
          simp [List.indexOf_cons]
        rw [h0, List.drop_zero, hcl fuel]
      · obtain ⟨hvc, hrc⟩ := hprops.2.2.1 c hc
        have hne : c ≠ x :: t := by
          intro he
          rw [he] at hrc
          omega
        have hidx : List.indexOf c ((x :: t) :: combList n (bump 0 (x :: t)) fuel) =
            List.indexOf c (combList n (bump 0 (x :: t)) fuel) + 1 := by
          have hb : ((x :: t) == c) = false :=
            beq_eq_false_iff_ne.mpr (fun he => hne he.symm)
          rw [List.indexOf_cons, hb, cond_false]
        rw [hidx, List.drop_succ_cons]
        have ih := combList_suffix m n k (bump 0 (x :: t)) fuel hk hv2
          (by omega) (by omega) c hc
        have hfi : combList n c (fuel + 1) = combList n c fuel := by
          obtain ⟨xc, tc, rfl⟩ : ∃ xc tc, c = xc :: tc := by
            cases c with
            | nil =>
              exfalso
              have h0 := hvc.2.1
              simp only [List.length_nil] at h0
              omega
            | cons a b => exact ⟨a, b, rfl⟩
          have hclt := rankL_lt_choose n k xc tc hvc
          have hpc := combList_props (n.choose k - rankL (xc :: tc)) n k
            (xc :: tc) fuel hk hvc (by omega) (by omega)
          exact hpc.2.1 (fuel + 1) (by omega)
        rw [hfi, ih]

/-! ### Lemmas about `pyPerms` -/

theorem getD_cons_eraseIdx_perm : ∀ (l : List Nat) (i : Nat), i < l.length →
    (l.getD i 0 :: l.eraseIdx i).Perm l
  | [], i, h => by simp at h
  | x :: t, 0, _ => by simp
  | x :: t, i + 1, h => by
    simp only [List.length_cons] at h
    have ih := getD_cons_eraseIdx_perm t i (by omega)
    have h1 : (x :: t).getD (i + 1) 0 = t.getD i 0 := rfl
    have h2 : (x :: t).eraseIdx (i + 1) = x :: t.eraseIdx i := rfl
    rw [h1, h2]
    exact List.Perm.trans (List.Perm.swap x (t.getD i 0) (t.eraseIdx i)) (ih.cons x)

theorem length_eraseIdx_cons (x : Nat) (t : List Nat) (i : Nat)
    (hi : i < (x :: t).length) : ((x :: t).eraseIdx i).length = t.length := by
  have hi3 : i < t.length + 1 := by simpa using hi
  rw [List.length_eraseIdx]
  simp [hi3]

theorem pyPermsAux_length : ∀ (fuel : Nat) (l : List Nat), l.length ≤ fuel →
    (pyPermsAux fuel l).length = l.length.factorial
  | _, [], _ => by simp [pyPermsAux]
  | 0, x :: t, h => by simp at h
  | fuel + 1, x :: t, h => by
    simp only [pyPermsAux, List.length_flatMap, Function.comp_def]
    have hlen : ∀ i ∈ List.range (x :: t).length,
        ((pyPermsAux fuel ((x :: t).eraseIdx i)).map (((x :: t).getD i 0) :: ·)).length =
          t.length.factorial := by
      intro i hi
      have hi2 : i < (x :: t).length := List.mem_range.mp hi
      have he : ((x :: t).eraseIdx i).length = t.length :=
        length_eraseIdx_cons x t i hi2
      rw [List.length_map, pyPermsAux_length fuel ((x :: t).eraseIdx i)
        (by simp only [List.length_cons] at h; rw [he]; omega), he]
    rw [List.map_congr_left hlen]
    simp [List.map_const', List.length_cons, Nat.factorial_succ, Nat.mul_comm]

theorem pyPermsAux_perm : ∀ (fuel : Nat) (l : List Nat) (p : List Nat),
    l.length ≤ fuel → p ∈ pyPermsAux fuel l → p.Perm l
  | _, [], p, _, hp => by
    simp only [pyPermsAux, List.mem_singleton] at hp
    simp [hp]
  | 0, x :: t, p, h, _ => by simp at h
  | fuel + 1, x :: t, p, h, hp => by
    simp only [pyPermsAux, List.mem_flatMap, List.mem_map] at hp
    obtain ⟨i, hi, q, hq, rfl⟩ := hp
    have hi2 : i < (x :: t).length := List.mem_range.mp hi
    have he : ((x :: t).eraseIdx i).length = t.length :=
      length_eraseIdx_cons x t i hi2
    have ih := pyPermsAux_perm fuel ((x :: t).eraseIdx i) q
      (by simp only [List.length_cons] at h; rw [he]; omega) hq
    exact (ih.cons _).trans (getD_cons_eraseIdx_perm (x :: t) i hi2)

theorem pyPermsAux_nodup : ∀ (fuel : Nat) (l : List Nat), l.length ≤ fuel →
    l.Nodup → (pyPermsAux fuel l).Nodup
  | _, [], _, _ => by simp [pyPermsAux]
  | 0, x :: t, h, _ => by simp at h
  | fuel + 1, x :: t, h, hnd => by
    simp only [pyPermsAux]
    rw [List.nodup_flatMap]
    constructor
    · intro i hi
      have hi2 : i < (x :: t).length := List.mem_range.mp hi
      refine List.Nodup.map List.cons_injective ?_
      exact pyPermsAux_nodup fuel ((x :: t).eraseIdx i)
        (by
          rw [length_eraseIdx_cons x t i hi2]
          simp only [List.length_cons] at h
          omega)
        (hnd.eraseIdx i)
    · refine (List.pairwise_lt_range _).imp_of_mem ?_
      intro i j hi hj hij p hpi hpj
      have hi2 : i < (x :: t).length := List.mem_range.mp hi
      have hj2 : j < (x :: t).length := List.mem_range.mp hj
      simp only [List.mem_map] at hpi hpj
      obtain ⟨qi, _, hqi⟩ := hpi
      obtain ⟨qj, _, hqj⟩ := hpj
      have hhead : (x :: t).getD i 0 = (x :: t).getD j 0 :=
        (List.cons_eq_cons.mp (hqi.trans hqj.symm)).1
      rw [List.getD_eq_getElem (x :: t) 0 hi2, List.getD_eq_getElem (x :: t) 0 hj2] at hhead
      have := (hnd.getElem_inj_iff.mp hhead)
      omega

theorem pyPermsAux_head? : ∀ (fuel : Nat) (l : List Nat), l.length ≤ fuel →
    (pyPermsAux fuel l).head? = some l
  | _, [], _ => by simp [pyPermsAux]
  | 0, x :: t, h => by simp at h
  | fuel + 1, x :: t, h => by
    have ih := pyPermsAux_head? fuel t (by simp only [List.length_cons] at h; omega)
    simp only [pyPermsAux, List.length_cons, List.range_succ_eq_map,
      List.flatMap_cons, List.head?_append]
    have h0 : (x :: t).eraseIdx 0 = t := rfl
    have h1 : (x :: t).getD 0 0 = x := rfl
    rw [h0, h1, List.head?_map, ih]
    rfl

/-! ### Lemmas about `permBlock` -/

theorem chain_lt_nodup (l : List Nat) (h : l.Chain' (· < ·)) : l.Nodup :=
  ((List.chain'_iff_pairwise).mp h).imp_of_mem fun _ _ hab => Nat.ne_of_lt hab

theorem permBlock_length (c0 : Nat) (rest : List Nat) :
    (permBlock (c0 :: rest)).length = rest.length.factorial / 2 := by
  unfold permBlock pyPerms
  rw [List.length_map, List.length_take,
    pyPermsAux_length rest.length rest (Nat.le_refl _)]
  simp only [List.length_cons, Nat.add_sub_cancel]
  exact Nat.min_eq_left (Nat.div_le_self _ 2)

theorem permBlock_shape (c0 : Nat) (rest t : List Nat)
    (ht : t ∈ permBlock (c0 :: rest)) :
    ∃ p, t = c0 :: p ∧ p.Perm rest := by
  unfold permBlock at ht
  simp only [List.mem_map] at ht
  obtain ⟨p, hp, rfl⟩ := ht
  refine ⟨p, rfl, ?_⟩
  exact pyPermsAux_perm rest.length rest p (Nat.le_refl _) (List.mem_of_mem_take hp)

theorem permBlock_perm (c0 : Nat) (rest t : List Nat)
    (ht : t ∈ permBlock (c0 :: rest)) : t.Perm (c0 :: rest) := by
  obtain ⟨p, rfl, hp⟩ := permBlock_shape c0 rest t ht
  exact hp.cons c0

theorem head?_take_pos (b : Nat) (l : List (List Nat)) (hb : 0 < b) :
    (l.take b).head? = l.head? := by
  match b, hb with
  | b + 1, _ =>
    match l with
    | [] => rfl
    | a :: l2 => rfl

theorem permBlock_head? (c0 : Nat) (rest : List Nat) (h2 : 2 ≤ rest.length) :
    (permBlock (c0 :: rest)).head? = some (c0 :: rest) := by
  unfold permBlock pyPerms
  have hb : 0 < rest.length.factorial / 2 := by
    have h1 : rest.length ≤ rest.length.factorial := Nat.self_le_factorial _
    omega
  simp only [List.length_cons, Nat.add_sub_cancel]
  rw [List.head?_map, head?_take_pos _ _ hb,
    pyPermsAux_head? rest.length rest (Nat.le_refl _)]
  rfl

theorem permBlock_nodup (c0 : Nat) (rest : List Nat)
    (hnd : (c0 :: rest).Nodup) : (permBlock (c0 :: rest)).Nodup := by
  unfold permBlock pyPerms
  refine List.Nodup.map List.cons_injective ?_
  refine (List.take_sublist _ _).nodup ?_
  exact pyPermsAux_nodup rest.length rest (Nat.le_refl _)
    ((List.nodup_cons.mp hnd).2)

/-! ### `flatMap` and `indexOf` helpers -/

theorem flatMap_length_uniform : ∀ (L : List (List Nat))
    (f : List Nat → List (List Nat)) (b : Nat),
    (∀ c ∈ L, (f c).length = b) → (L.flatMap f).length = L.length * b
  | [], _, _, _ => by simp
  | c :: L2, f, b, h => by
    have ih := flatMap_length_uniform L2 f b
      (fun d hd => h d (List.mem_cons_of_mem c hd))
    simp only [List.flatMap_cons, List.length_append, ih,
      h c (List.mem_cons_self c L2), List.length_cons]
    ring

theorem flatMap_drop_uniform : ∀ (i : Nat) (L : List (List Nat))
    (f : List Nat → List (List Nat)) (b : Nat),
    (∀ c ∈ L, (f c).length = b) →
    (L.flatMap f).drop (i * b) = (L.drop i).flatMap f
  | 0, L, f, b, _ => by simp
  | i + 1, [], f, b, _ => by simp
  | i + 1, c :: L2, f, b, h => by
    have ih := flatMap_drop_uniform i L2 f b
      (fun d hd => h d (List.mem_cons_of_mem c hd))
    have hc : (f c).length = b := h c (List.mem_cons_self c L2)
    rw [List.flatMap_cons]
    rw [show (i + 1) * b = (f c).length + i * b by rw [hc]; ring]
    rw [List.drop_append, List.drop_succ_cons]
    exact ih

theorem indexOf_append_not_mem : ∀ (L1 L2 : List (List Nat)) (s : List Nat),
    s ∉ L1 → (L1 ++ L2).indexOf s = L1.length + L2.indexOf s
  | [], _, _, _ => by simp
  | a :: L1, L2, s, hs => by
    have hne : s ≠ a := fun he => hs (he ▸ List.mem_cons_self a L1)
    have ih := indexOf_append_not_mem L1 L2 s (fun hm => hs (List.mem_cons_of_mem a hm))
    have hb : (a == s) = false := beq_eq_false_iff_ne.mpr (fun he => hne he.symm)
    simp only [List.cons_append, List.indexOf_cons, hb, cond_false, ih,
      List.length_cons]
    ring

theorem indexOf_of_head? (L : List (List Nat)) (s : List Nat)
    (h : L.head? = some s) : L.indexOf s = 0 := by
  match L, h with
  | a :: L2, h =>
    simp only [List.head?, Option.some.injEq] at h
    subst h
    simp [List.indexOf_cons]

theorem not_mem_take_indexOf : ∀ (L : List (List Nat)) (s : List Nat),
    s ∉ L.take (L.indexOf s)
  | [], s => by simp
  | a :: L2, s => by
    by_cases he : s = a
    · subst he
      simp [List.indexOf_cons]
    · have hb : (a == s) = false := beq_eq_false_iff_ne.mpr (fun h => he h.symm)
      simp only [List.indexOf_cons, hb, cond_false, List.take_succ_cons]
      intro hm
      rcases List.mem_cons.mp hm with hm | hm
      · exact he hm
      · exact not_mem_take_indexOf L2 s hm

theorem drop_eq_cons_of_head? (L : List (List Nat)) (j : Nat) (s : List Nat)
    (h : (L.drop j).head? = some s) : L.drop j = s :: L.drop (j + 1) := by
  rcases hd : L.drop j with _ | ⟨a, m⟩
  · rw [hd] at h; simp at h
  · rw [hd] at h
    simp only [List.head?, Option.some.injEq] at h
    subst h
    have : L.drop (j + 1) = (L.drop j).tail := by
      rw [← List.drop_drop]
      simp [List.drop_one]
    rw [this, hd]
    rfl

theorem indexOf_lt_length_of_mem : ∀ (L : List (List Nat)) (s : List Nat),
    s ∈ L → L.indexOf s < L.length
  | [], s, h => by simp at h
  | a :: L2, s, h => by
    by_cases he : s = a
    · subst he
      simp [List.indexOf_cons]
    · have hb : (a == s) = false := beq_eq_false_iff_ne.mpr (fun x => he x.symm)
      rcases List.mem_cons.mp h with h | h
      · exact absurd h he
      · have := indexOf_lt_length_of_mem L2 s h
        simp only [List.indexOf_cons, hb, cond_false, List.length_cons]
        omega

theorem sorted_eq_of_perm (a b : List Nat) (ha : a.Chain' (· < ·))
    (hb : b.Chain' (· < ·)) (hp : a.Perm b) : a = b :=
  List.eq_of_perm_of_sorted hp ((List.chain'_iff_pairwise).mp ha)
    ((List.chain'_iff_pairwise).mp hb)

/-! ### Facts about the full run -/

theorem chain_run_facts (n k : Nat) (hk1 : 1 ≤ k) (hkn : k ≤ n) :
    (combList n (List.range k) (n.choose k)).length = n.choose k ∧
    (∀ c ∈ combList n (List.range k) (n.choose k), ValidComb n k c) ∧
    (combList n (List.range k) (n.choose k)).Chain'
      (fun a b => rankL a < rankL b) := by
  have h := combList_props (n.choose k) n k (List.range k) (n.choose k) hk1
    (validComb_range n k hkn) (by rw [rankL_range]; omega) (Nat.le_refl _)
  exact ⟨h.1, fun c hc => (h.2.2.1 c hc).1, h.2.2.2⟩

theorem valid_shape (n k : Nat) (c : List Nat) (hv : ValidComb n k c)
    (hk1 : 1 ≤ k) : ∃ c0 rest, c = c0 :: rest ∧ rest.length = k - 1 := by
  cases c with
  | nil =>
    exfalso
    have h0 := hv.2.1
    simp only [List.length_nil] at h0
    omega
  | cons a b =>
    refine ⟨a, b, rfl, ?_⟩
    have := hv.2.1
    simp only [List.length_cons] at this
    omega

theorem permBlock_length_of_valid (n k : Nat) (c : List Nat)
    (hv : ValidComb n k c) (hk1 : 1 ≤ k) :
    (permBlock c).length = (k - 1).factorial / 2 := by
  obtain ⟨c0, rest, rfl, hrl⟩ := valid_shape n k c hv hk1
  rw [permBlock_length, hrl]

theorem runStates_def (n k : Nat) :
    runStatesNone n k =
      (combList n (List.range k) (n.choose k)).flatMap permBlock := rfl

theorem runStates_length (n k : Nat) (hk1 : 1 ≤ k) (hkn : k ≤ n) :
    (runStatesNone n k).length = n.choose k * ((k - 1).factorial / 2) := by
  obtain ⟨hlen, hval, _⟩ := chain_run_facts n k hk1 hkn
  rw [runStates_def, flatMap_length_uniform _ permBlock ((k - 1).factorial / 2)
    (fun c hc => permBlock_length_of_valid n k c (hval c hc) hk1), hlen]

theorem runStates_nodup (n k : Nat) (hk1 : 1 ≤ k) (hkn : k ≤ n) :
    (runStatesNone n k).Nodup := by
  obtain ⟨_, hval, hchain⟩ := chain_run_facts n k hk1 hkn
  rw [runStates_def, List.nodup_flatMap]
  constructor
  · intro c hc
    obtain ⟨c0, rest, rfl, _⟩ := valid_shape n k c (hval c hc) hk1
    exact permBlock_nodup c0 rest (chain_lt_nodup _ (hval _ hc).1)
  · haveI : IsTrans (List Nat) (fun a b => rankL a < rankL b) :=
      ⟨fun _ _ _ h1 h2 => lt_trans h1 h2⟩
    refine ((List.chain'_iff_pairwise).mp hchain).imp_of_mem ?_
    intro a b ha hb hab t hta htb
    obtain ⟨a0, arest, rfl, _⟩ := valid_shape n k a (hval a ha) hk1
    obtain ⟨b0, brest, rfl, _⟩ := valid_shape n k b (hval b hb) hk1
    have hpa := permBlock_perm a0 arest t hta
    have hpb := permBlock_perm b0 brest t htb
    have : (a0 :: arest) = (b0 :: brest) :=
      sorted_eq_of_perm _ _ (hval _ ha).1 (hval _ hb).1 (hpa.symm.trans hpb)
    rw [this] at hab
    exact absurd hab (lt_irrefl _)

theorem mem_runStates (n k : Nat) (hk1 : 1 ≤ k) (hkn : k ≤ n) (t : List Nat)
    (ht : t ∈ runStatesNone n k) :
    ∃ c, c ∈ combList n (List.range k) (n.choose k) ∧ ValidComb n k c ∧
      t ∈ permBlock c := by
  rw [runStates_def] at ht
  obtain ⟨c, hc, htc⟩ := List.mem_flatMap.mp ht
  exact ⟨c, hc, (chain_run_facts n k hk1 hkn).2.1 c hc, htc⟩

/-- Resuming `iterate_states` from a strictly increasing previously-yielded
state reproduces exactly the suffix of the uninterrupted run that starts at
that state. -/
theorem resume_eq_drop (n k : Nat) (h3 : 3 ≤ k) (hkn : k ≤ n) (s : List Nat)
    (hmem : s ∈ runStatesNone n k) (hsort : s.Chain' (· < ·)) :
    iterate_states n k (some s) (n.choose k) =
      (runStatesNone n k).drop ((runStatesNone n k).indexOf s) ∧
    (runStatesNone n k).drop ((runStatesNone n k).indexOf s) =
      s :: (runStatesNone n k).drop ((runStatesNone n k).indexOf s + 1) := by
  have hk1 : 1 ≤ k := by omega
  obtain ⟨c, hc, hvc, htc⟩ := mem_runStates n k hk1 hkn s hmem
  obtain ⟨c0, rest, rfl, hrl⟩ := valid_shape n k c hvc hk1
  have hseq : s = c0 :: rest :=
    sorted_eq_of_perm s _ hsort hvc.1 (permBlock_perm c0 rest s htc)
  subst hseq
  obtain ⟨hclen, hcval, hcchain⟩ := chain_run_facts n k hk1 hkn
  have hsuffix : combList n (c0 :: rest) (n.choose k) =
      (combList n (List.range k) (n.choose k)).drop
        ((combList n (List.range k) (n.choose k)).indexOf (c0 :: rest)) :=
    combList_suffix (n.choose k) n k (List.range k) (n.choose k) hk1
      (validComb_range n k hkn) (by rw [rankL_range]; omega) (Nat.le_refl _) _ hc
  have huni : ∀ c2 ∈ combList n (List.range k) (n.choose k),
      (permBlock c2).length = (k - 1).factorial / 2 :=
    fun c2 hc2 => permBlock_length_of_valid n k c2 (hcval c2 hc2) hk1
  have hhead : ((combList n (List.range k) (n.choose k)).drop
      ((combList n (List.range k) (n.choose k)).indexOf (c0 :: rest))).head? =
      some (c0 :: rest) := by
    rw [← hsuffix]
    have hCpos : 0 < n.choose k := Nat.choose_pos hkn
    obtain ⟨C2, hC2⟩ : ∃ C2, n.choose k = C2 + 1 := ⟨n.choose k - 1, by omega⟩
    rw [hC2]
    rfl
  have hd_cons := drop_eq_cons_of_head? (combList n (List.range k) (n.choose k))
    ((combList n (List.range k) (n.choose k)).indexOf (c0 :: rest)) _ hhead
  have hrest2 : 2 ≤ rest.length := by omega
  have hpbhead : (permBlock (c0 :: rest)).head? = some (c0 :: rest) :=
    permBlock_head? c0 rest hrest2
  have hrunsplit : runStatesNone n k =
      ((combList n (List.range k) (n.choose k)).take
        ((combList n (List.range k) (n.choose k)).indexOf (c0 :: rest))).flatMap
          permBlock ++
      ((combList n (List.range k) (n.choose k)).drop
        ((combList n (List.range k) (n.choose k)).indexOf (c0 :: rest))).flatMap
          permBlock := by
    rw [runStates_def]
    conv_lhs => rw [← List.take_append_drop
      ((combList n (List.range k) (n.choose k)).indexOf (c0 :: rest))
      (combList n (List.range k) (n.choose k))]
    rw [List.flatMap_append]
  have hnm1 : (c0 :: rest) ∉ ((combList n (List.range k) (n.choose k)).take
      ((combList n (List.range k) (n.choose k)).indexOf (c0 :: rest))).flatMap
        permBlock := by
    intro hmm
    obtain ⟨c2, hc2, htc2⟩ := List.mem_flatMap.mp hmm
    have hc2chain : c2 ∈ combList n (List.range k) (n.choose k) :=
      List.mem_of_mem_take hc2
    obtain ⟨d0, drest, rfl, _⟩ := valid_shape n k c2 (hcval c2 hc2chain) hk1
    have heq : (c0 :: rest) = d0 :: drest :=
      sorted_eq_of_perm _ _ hsort (hcval _ hc2chain).1
        (permBlock_perm d0 drest _ htc2)
    rw [← heq] at hc2
    exact not_mem_take_indexOf _ _ hc2
  have hsecond_head : (((combList n (List.range k) (n.choose k)).drop
      ((combList n (List.range k) (n.choose k)).indexOf (c0 :: rest))).flatMap
        permBlock).head? = some (c0 :: rest) := by
    rw [hd_cons, List.flatMap_cons, List.head?_append, hpbhead]
    rfl
  have hidx : (runStatesNone n k).indexOf (c0 :: rest) =
      ((combList n (List.range k) (n.choose k)).indexOf (c0 :: rest)) *
        ((k - 1).factorial / 2) := by
    rw [hrunsplit, indexOf_append_not_mem _ _ _ hnm1,
      indexOf_of_head? _ _ hsecond_head,
      flatMap_length_uniform _ permBlock ((k - 1).factorial / 2)
        (fun c2 hc2 => huni c2 (List.mem_of_mem_take hc2)),
      List.length_take]
    have hi_lt := indexOf_lt_length_of_mem
      (combList n (List.range k) (n.choose k)) _ hc
    rw [Nat.min_eq_left (by omega)]
    omega
  have hdrop : (runStatesNone n k).drop
      (((combList n (List.range k) (n.choose k)).indexOf (c0 :: rest)) *
        ((k - 1).factorial / 2)) =
      ((combList n (List.range k) (n.choose k)).drop
        ((combList n (List.range k) (n.choose k)).indexOf (c0 :: rest))).flatMap
          permBlock := by
    rw [runStates_def]
    exact flatMap_drop_uniform _ _ permBlock _ huni
  constructor
  · rw [hidx, hdrop]
    show (combList n (c0 :: rest) (n.choose k)).flatMap permBlock = _
    rw [hsuffix]
  · rw [hidx]
    refine drop_eq_cons_of_head? _ _ _ ?_
    rw [hdrop]
    exact hsecond_head

/-- For `3 ≤ k ≤ n` the Python floor division in `state_count` is exact and
the value equals `C(n,k) * ((k-1)! / 2)`, the number of states of a full
run. -/
theorem state_count_eq (n k : Nat) (h3 : 3 ≤ k) (hkn : k ≤ n) :
    state_count n k = n.choose k * ((k - 1).factorial / 2) ∧
    state_count n k * (2 * (n - k).factorial * k) = n.factorial := by
  obtain ⟨m, hm⟩ : 2 ∣ (k - 1).factorial :=
    Nat.dvd_factorial (by omega) (by omega)
  have hkfact : k.factorial = k * (k - 1).factorial := by
    obtain ⟨j, rfl⟩ : ∃ j, k = j + 1 := ⟨k - 1, by omega⟩
    simp [Nat.factorial_succ]
  have hch := Nat.choose_mul_factorial_mul_factorial hkn
  have hn : n.factorial = 2 * (n - k).factorial * k * (n.choose k * m) := by
    rw [← hch, hkfact, hm]
    ring
  have hpos : 0 < 2 * (n - k).factorial * k :=
    Nat.mul_pos (Nat.mul_pos (by omega) (Nat.factorial_pos _)) (by omega)
  have hsc : state_count n k = n.choose k * m := by
    unfold state_count
    rw [hn, Nat.mul_div_cancel_left _ hpos]
  have hm2 : (k - 1).factorial / 2 = m := by
    rw [hm, Nat.mul_div_cancel_left m (by omega)]
  refine ⟨by rw [hsc, hm2], ?_⟩
  rw [hsc, hn]
  ring

/-! ### Helper characterizations for `_init_vizrank` -/

theorem bool_true_of_not_false (b : Bool) (h : ¬b = false) : b = true := by
  cases b
  · exact absurd rfl h
  · rfl

theorem init_vizrank_enabled_iff (c : VizrankCtx) :
    (init_vizrank c).1 = true ↔
      (c.hasData = true ∧ c.hasColor = true ∧
        ¬(c.colorIsContinuous = true ∧ c.placementIsLDA = true) ∧
        3 ≤ c.nUsableVars ∧ 2 ≤ c.nValidInstances ∧
        c.colorAllMissing = false) := by
  unfold init_vizrank
  split_ifs with h1 h2 h3 h4 h5
  · refine iff_of_false (by simp) ?_
    intro hcon
    simp [hcon.1] at h1
  · refine iff_of_false (by simp) ?_
    intro hcon
    simp [hcon.2.1] at h2
  · exact iff_of_false (by simp) (fun hcon => hcon.2.2.1 h3)
  · exact iff_of_false (by simp) (fun hcon => absurd hcon.2.2.2.1 (by omega))
  · exact iff_of_false (by simp)
      (fun hcon => absurd hcon.2.2.2.2.1 (by omega))
  · have hhd : c.hasData = true := bool_true_of_not_false _ h1
    have hhc : c.hasColor = true := bool_true_of_not_false _ h2
    simp only [Bool.not_eq_true']
    constructor
    · intro hcm
      exact ⟨hhd, hhc, h3, by omega, by omega, hcm⟩
    · intro hcon
      exact hcon.2.2.2.2.2

theorem init_vizrank_msg_iff (c : VizrankCtx) :
    (init_vizrank c).2 = "" ↔
      (c.hasData = true ∧ c.hasColor = true ∧
        ¬(c.colorIsContinuous = true ∧ c.placementIsLDA = true) ∧
        3 ≤ c.nUsableVars ∧ 2 ≤ c.nValidInstances) := by
  unfold init_vizrank
  split_ifs with h1 h2 h3 h4 h5
  · refine iff_of_false (by decide) ?_
    intro hcon
    simp [hcon.1] at h1
  · refine iff_of_false (by decide) ?_
    intro hcon
    simp [hcon.2.1] at h2
  · exact iff_of_false (by decide) (fun hcon => hcon.2.2.1 h3)
  · exact iff_of_false (by decide) (fun hcon => absurd hcon.2.2.2.1 (by omega))
  · exact iff_of_false (by decide)
      (fun hcon => absurd hcon.2.2.2.2 (by omega))
  · have hhd : c.hasData = true := bool_true_of_not_false _ h1
    have hhc : c.hasColor = true := bool_true_of_not_false _ h2
    exact iff_of_true rfl ⟨hhd, hhc, h3, by omega, by omega⟩

/-! ### Helper for `matchCount` -/

theorem matchCount_zip_eq (y : List ℚ) : ∀ (ys : List ℚ) (inds : List (List Nat)),
    ys.length = inds.length →
    ((ys.zip inds).map
      (fun p => (p.2.filter (fun j => y.getD j 0 = p.1)).length)).sum =
    ∑ i ∈ Finset.range ys.length,
      ((inds.getD i []).filter (fun j => y.getD j 0 = ys.getD i 0)).length
  | [], [], _ => by simp
  | [], r :: inds, h => by simp at h
  | y0 :: ys, [], h => by simp at h
  | y0 :: ys, r :: inds, h => by
    have ih := matchCount_zip_eq y ys inds (by simpa using h)
    simp only [List.zip_cons_cons, List.map_cons, List.sum_cons, ih,
      List.length_cons]
    rw [Finset.sum_range_succ']
    have h0 : ∀ i, ((r :: inds).getD (i + 1) []) = inds.getD i [] := fun i => rfl
    have h1 : ∀ i, ((y0 :: ys).getD (i + 1) 0) = ys.getD i 0 := fun i => rfl
    simp only [h0, h1, List.getD_cons_zero]
    omega

theorem matchCount_eq (y : List ℚ) (ind : List (List Nat))
    (hlen : ind.length = y.length) :
    matchCount y ind =
    ∑ i ∈ Finset.range y.length,
      ((ind.getD i []).filter (fun j => y.getD j 0 = y.getD i 0)).length := by
  unfold matchCount
  exact matchCount_zip_eq y y ind hlen.symm

/-! ### Claim theorems -/

/-- C3, counterexample to the claim as stated: with exactly 2 usable
continuous non-target variables (and data present, a discrete color
selected, non-LDA placement, 5 valid instances, target not entirely
missing) the claim's three conditions hold, yet `_init_vizrank` disables
the start button: the code requires at least 3 usable variables. -/
theorem C3_counterexample :
    (init_vizrank ⟨true, true, false, false, 2, 5, false⟩).1 = false ∧
    2 ≤ (⟨true, true, false, false, 2, 5, false⟩ : VizrankCtx).nUsableVars ∧
    2 ≤ (⟨true, true, false, false, 2, 5, false⟩ : VizrankCtx).nValidInstances ∧
    (⟨true, true, false, false, 2, 5, false⟩ : VizrankCtx).colorAllMissing
      = false := by
  refine ⟨rfl, ?_, ?_, rfl⟩ <;> decide

/-- C3 (amended).  The precondition check (the base check assumed to pass)
succeeds exactly when data is present, a color variable is selected, it is
not the case that the color is continuous while the placement is LDA,
there are at least **3** usable continuous non-target variables, at least
2 valid instances, and the target column is not entirely missing.  The
check never raises: it returns a disabled flag plus a reason string, and
the reason string is nonempty exactly when one of the first five
conditions fails (an entirely missing target disables start with an empty
reason). -/
theorem C3_amended_preconditions (c : VizrankCtx) :
    (check_preconditions true c = true ↔
      (c.hasData = true ∧ c.hasColor = true ∧
        ¬(c.colorIsContinuous = true ∧ c.placementIsLDA = true) ∧
        3 ≤ c.nUsableVars ∧ 2 ≤ c.nValidInstances ∧
        c.colorAllMissing = false)) ∧
    ((init_vizrank c).2 = "" ↔
      (c.hasData = true ∧ c.hasColor = true ∧
        ¬(c.colorIsContinuous = true ∧ c.placementIsLDA = true) ∧
        3 ≤ c.nUsableVars ∧ 2 ≤ c.nValidInstances)) := by
  constructor
  · rw [← init_vizrank_enabled_iff c]
    unfold check_preconditions
    simp
  · exact init_vizrank_msg_iff c

/-- C6.  The function `compute_score` returns `None` whenever the embedded instance
count (one embedded row per data row) is strictly below `minK = 10`; this
is a regular return value, not an exception, and the driver records no
result for such a candidate (the result list is unchanged). -/
theorem C6_no_score_below_minK (t : DataTable) (isDiscrete : Bool)
    (proj : Nat → List ℚ) (knnInd : Nat → List (List Nat))
    (r2 : List ℚ → List ℚ → ℚ) (res : List ℚ)
    (h : t.nRows < minK) :
    compute_score t isDiscrete proj knnInd r2 = none ∧
    add_result res (compute_score t isDiscrete proj knnInd r2) = res := by
  have hnone : compute_score t isDiscrete proj knnInd r2 = none := by
    unfold compute_score
    rw [if_pos (by rw [List.length_map, List.length_range]; exact h)]
  rw [hnone]
  exact ⟨rfl, rfl⟩

/-- C6 witness: a table of 5 rows is below the threshold, gets no score,
and leaves the result list untouched. -/
theorem C6_witness :
    (5 : Nat) < minK ∧
    compute_score ⟨5, fun _ => 0⟩ true (fun _ => [0]) (fun _ => [])
      (fun _ _ => 0) = none ∧
    add_result [1, 2] (compute_score ⟨5, fun _ => 0⟩ true (fun _ => [0])
      (fun _ => []) (fun _ _ => 0)) = [1, 2] := by
  refine ⟨by decide, ?_, ?_⟩
  · exact (C6_no_score_below_minK ⟨5, fun _ => 0⟩ true (fun _ => [0])
      (fun _ => []) (fun _ _ => 0) [1, 2] (by decide)).1
  · exact (C6_no_score_below_minK ⟨5, fun _ => 0⟩ true (fun _ => [0])
      (fun _ => []) (fun _ _ => 0) [1, 2] (by decide)).2

/-- C7.  For a discrete target past the `minK` gate, `compute_score`
returns exactly the negative count of matching-class (point, neighbor)
pairs divided by `n_neighbors * instance_count`, where `n_neighbors =
min(minK, instance_count - 1)` and the neighbor rows come from the
(external) k-nearest-neighbor query, one row per instance. -/
theorem C7_discrete_score (t : DataTable) (proj : Nat → List ℚ)
    (knnInd : Nat → List (List Nat)) (r2 : List ℚ → List ℚ → ℚ)
    (h10 : minK ≤ t.nRows)
    (hind : (knnInd (min minK (t.nRows - 1))).length = t.nRows) :
    compute_score t true proj knnInd r2 =
      some (specDiscreteScore (column_data t)
        (knnInd (min minK (t.nRows - 1))) (min minK (t.nRows - 1))) := by
  have hec : ((List.range t.nRows).map proj).length = t.nRows := by
    rw [List.length_map, List.length_range]
  have hy : (column_data t).length = t.nRows := by
    unfold column_data
    rw [List.length_map, List.length_range]
  unfold compute_score
  rw [if_neg (by rw [hec]; omega), hec, if_pos rfl]
  congr 1
  unfold specDiscreteScore
  rw [matchCount_eq (column_data t) (knnInd (min minK (t.nRows - 1)))
    (by rw [hind, hy])]
  rw [hy]
  push_cast
  rw [div_div, neg_div]

/-- C7 witness at a 10-row table with a constant color column and an
abstract neighbor table of 10 (empty) rows. -/
theorem C7_witness :
    minK ≤ (10 : Nat) ∧
    ((fun _ => List.replicate 10 ([] : List Nat)) (min minK (10 - 1))).length
      = 10 ∧
    compute_score ⟨10, fun _ => 0⟩ true (fun _ => [0])
      (fun _ => List.replicate 10 []) (fun _ _ => 0) =
      some (specDiscreteScore (column_data ⟨10, fun _ => 0⟩)
        ((fun _ => List.replicate 10 ([] : List Nat)) (min minK (10 - 1)))
        (min minK (10 - 1))) := by
  refine ⟨by decide, by decide, ?_⟩
  exact C7_discrete_score ⟨10, fun _ => 0⟩ (fun _ => [0])
    (fun _ => List.replicate 10 []) (fun _ _ => 0) (by decide) (by decide)

/-- C8.  `before_running` in one equation: a changed `n_attrs` discards the
saved enumerator state, the progress counter, the score list and the rank
model rows; an unchanged `n_attrs` with saved progress only refreshes
`last_run_n_attrs`, preserving state, scores and results, so the run
resumes. -/
theorem C8_before_running (s : VizRankState) :
    before_running s =
      if some s.n_attrs ≠ s.last_run_n_attrs then
        { s with saved_state := none, saved_progress := 0, scores := [],
                 rank_rows := 0, last_run_n_attrs := some s.n_attrs }
      else if s.saved_state = none then
        { s with scores := [], rank_rows := 0,
                 last_run_n_attrs := some s.n_attrs }
      else { s with last_run_n_attrs := some s.n_attrs } := by
  rcases s with ⟨na, lr, ss, sp, sc, rr⟩
  unfold before_running
  by_cases h1 : some na ≠ lr
  · rw [if_pos h1]
    simp [h1]
  · rw [if_neg h1]
    simp only [h1, if_false, ite_not]
    by_cases h2 : ss = none
    · simp [h1, h2]
    · simp [h1, h2]

/-- C9.  In the continuous branch the penalty factor `len(y)/len(data)` is
identically 1 — `y` is the color column of the very table whose rows were
embedded — so the returned score is exactly `-r2_score(y, neighbor mean)`
with no scaling for subsets evaluated on fewer rows. -/
theorem C9_continuous_score_no_penalty (t : DataTable) (proj : Nat → List ℚ)
    (knnInd : Nat → List (List Nat)) (r2 : List ℚ → List ℚ → ℚ)
    (h10 : minK ≤ t.nRows) :
    ((column_data t).length : ℚ) / (t.nRows : ℚ) = 1 ∧
    compute_score t false proj knnInd r2 =
      some (-(r2 (column_data t) (neighborMeans (column_data t)
        (knnInd (min minK (t.nRows - 1)))))) := by
  have hy : (column_data t).length = t.nRows := by
    unfold column_data
    rw [List.length_map, List.length_range]
  have hpos : (t.nRows : ℚ) ≠ 0 := by
    have : (0 : Nat) < t.nRows := by
      have : minK = 10 := rfl
      omega
    exact_mod_cast Nat.pos_iff_ne_zero.mp this
  have hfac : ((column_data t).length : ℚ) / (t.nRows : ℚ) = 1 := by
    rw [hy]
    exact div_self hpos
  refine ⟨hfac, ?_⟩
  have hec : ((List.range t.nRows).map proj).length = t.nRows := by
    rw [List.length_map, List.length_range]
  unfold compute_score
  rw [if_neg (by rw [hec]; omega), hec]
  simp only [Bool.false_eq_true, if_false, Option.some.injEq]
  rw [hfac, mul_one]

/-- C9 witness at a 12-row table. -/
theorem C9_witness :
    minK ≤ (12 : Nat) ∧
    ((column_data ⟨12, fun _ => 0⟩).length : ℚ) / ((12 : Nat) : ℚ) = 1 ∧
    compute_score ⟨12, fun _ => 0⟩ false (fun _ => [0])
      (fun _ => List.replicate 12 []) (fun _ _ => 7) =
      some (-((fun (_ : List ℚ) (_ : List ℚ) => (7 : ℚ))
        (column_data ⟨12, fun _ => 0⟩)
        (neighborMeans (column_data ⟨12, fun _ => 0⟩)
          ((fun _ => List.replicate 12 ([] : List Nat))
            (min minK (12 - 1)))))) := by
  refine ⟨by decide, ?_, ?_⟩
  · exact (C9_continuous_score_no_penalty ⟨12, fun _ => 0⟩ (fun _ => [0])
      (fun _ => List.replicate 12 []) (fun _ _ => 7) (by decide)).1
  · exact (C9_continuous_score_no_penalty ⟨12, fun _ => 0⟩ (fun _ => [0])
      (fun _ => List.replicate 12 []) (fun _ _ => 7) (by decide)).2

/-- C10.  The component's interface enforces a minimum requested subset
size of 3: the `n_attrs` setting defaults to 3, the spin control's lower
bound is 3, and whenever the start button is enabled (which forces at
least 3 usable variables, the spin control's maximum) the value the spin
control reports is at least 3 — in particular never 2. -/
theorem C10_min_subset_size (c : VizrankCtx) (v : Nat)
    (h : (init_vizrank c).1 = true) :
    n_attrs_default = 3 ∧ n_attrs_min = 3 ∧
    3 ≤ spin_value n_attrs_min c.nUsableVars v ∧
    spin_value n_attrs_min c.nUsableVars v ≠ 2 := by
  have husable : 3 ≤ c.nUsableVars :=
    ((init_vizrank_enabled_iff c).mp h).2.2.2.1
  unfold spin_value n_attrs_min
  refine ⟨rfl, rfl, ?_, ?_⟩ <;> omega

/-- C10 witness: an enabled configuration with 5 usable variables and a
requested value of 0, clamped up to 3. -/
theorem C10_witness :
    (init_vizrank ⟨true, true, false, false, 5, 5, false⟩).1 = true ∧
    n_attrs_default = 3 ∧ n_attrs_min = 3 ∧
    3 ≤ spin_value n_attrs_min
      (⟨true, true, false, false, 5, 5, false⟩ : VizrankCtx).nUsableVars 0 ∧
    spin_value n_attrs_min
      (⟨true, true, false, false, 5, 5, false⟩ : VizrankCtx).nUsableVars 0
      ≠ 2 := by
  refine ⟨rfl, ?_⟩
  exact C10_min_subset_size ⟨true, true, false, false, 5, 5, false⟩ 0 rfl

/-- C1, counterexample to the claim as stated: at `n = 3`, `k = 2` the
formula value is `state_count 3 2 = 1` (floor of 6/4), yet a full
uninterrupted run from `None` yields no candidate tuple at all — for
`k = 2` the loop takes `islice(permutations(c[1:]), 1 // 2) = islice(_, 0)`
per combination, so nothing is ever yielded. -/
theorem C1_counterexample :
    state_count 3 2 = 1 ∧ runStatesNone 3 2 = [] ∧
    ¬((runStatesNone 3 2).length = state_count 3 2) := by decide

/-- C1 (amended).  For all `n ≥ k ≥ 3`: `state_count(n, k)` returns exactly
`n!/(2·(n−k)!·k)` (the floor division is exact), and a full uninterrupted
run of `iterate_states` from `None` yields exactly `state_count(n, k)`
candidate tuples with no duplicate among them.  (For `k ≤ 2` a full run
yields no tuples, see the counterexample.) -/
theorem C1_amended_state_count_and_run (n k : Nat) (h3 : 3 ≤ k)
    (hkn : k ≤ n) :
    state_count n k * (2 * (n - k).factorial * k) = n.factorial ∧
    (runStatesNone n k).length = state_count n k ∧
    (runStatesNone n k).Nodup := by
  obtain ⟨heq, hexact⟩ := state_count_eq n k h3 hkn
  refine ⟨hexact, ?_, runStates_nodup n k (by omega) hkn⟩
  rw [runStates_length n k (by omega) hkn, heq]

/-- C1 witness at `n = 5`, `k = 3`: the division is exact and the run
yields `state_count 5 3 = 10` distinct tuples. -/
theorem C1_amended_witness :
    3 ≤ (3 : Nat) ∧ (3 : Nat) ≤ 5 ∧
    (state_count 5 3 * (2 * (5 - 3).factorial * 3) = (5 : Nat).factorial ∧
    (runStatesNone 5 3).length = state_count 5 3 ∧
    (runStatesNone 5 3).Nodup) :=
  ⟨by decide, by decide, C1_amended_state_count_and_run 5 3 (by decide) (by decide)⟩

/-- C2, counterexample to the claim as stated: at `n = 4`, `k = 4` the
uninterrupted run is `[0,1,2,3], [0,1,3,2], [0,2,1,3]`.  Restarting from
the previously-yielded state `s = (0,1,3,2)` (whose tail is not sorted)
does not continue with `(0,2,1,3)`: the restarted generator first replays
permutations of `s` itself and then walks a different (even malformed)
combination chain, so already the first subsequent state differs.  The
first conjunct shows the chosen fuel is irrelevant: the restarted run has
reached its stop condition long before either bound. -/
theorem C2_counterexample :
    [0, 1, 3, 2] ∈ runStatesNone 4 4 ∧
    iterate_states 4 4 (some [0, 1, 3, 2]) 10 =
      iterate_states 4 4 (some [0, 1, 3, 2]) 100 ∧
    ((iterate_states 4 4 (some [0, 1, 3, 2]) 10).drop 1).take 1 ≠
      ((runStatesNone 4 4).drop
        ((runStatesNone 4 4).indexOf [0, 1, 3, 2] + 1)).take 1 := by decide

/-- C2 (amended).  For every previously-yielded candidate state `s` whose
indices are strictly increasing — which is every yielded state when
`k = 3`, and the first state of each combination block in general —
restarting `iterate_states` from `s` yields `s` itself followed by exactly
the sequence of states the uninterrupted run produces after `s`. -/
theorem C2_amended_resume_determinism (n k : Nat) (h3 : 3 ≤ k) (hkn : k ≤ n)
    (s : List Nat) (hmem : s ∈ runStatesNone n k)
    (hsort : s.Chain' (· < ·)) :
    iterate_states n k (some s) (n.choose k) =
      s :: (runStatesNone n k).drop ((runStatesNone n k).indexOf s + 1) := by
  obtain ⟨h1, h2⟩ := resume_eq_drop n k h3 hkn s hmem hsort
  rw [h1, h2]

/-- C2 witness at `n = 4`, `k = 3`, resuming from the third yielded state
`[0, 2, 3]`. -/
theorem C2_amended_witness :
    [0, 2, 3] ∈ runStatesNone 4 3 ∧
    List.Chain' (· < ·) [0, 2, 3] ∧
    iterate_states 4 3 (some [0, 2, 3]) ((4 : Nat).choose 3) =
      [0, 2, 3] :: (runStatesNone 4 3).drop
        ((runStatesNone 4 3).indexOf [0, 2, 3] + 1) :=
  ⟨by decide, by simp [List.chain'_cons],
    C2_amended_resume_determinism 4 3 (by decide) (by decide) [0, 2, 3]
      (by decide) (by simp [List.chain'_cons])⟩

/-- C4.  Every candidate state yielded by a full uninterrupted run repeats
no index, and its first entry (the anchor) is less than or equal to every
other entry of the tuple. -/
theorem C4_anchor_min_nodup (n k : Nat) (hk1 : 1 ≤ k) (hkn : k ≤ n)
    (t : List Nat) (ht : t ∈ runStatesNone n k) :
    t.Nodup ∧ ∀ x ∈ t.tail, t.headI ≤ x := by
  obtain ⟨c, hc, hvc, htc⟩ := mem_runStates n k hk1 hkn t ht
  obtain ⟨c0, rest, rfl, _⟩ := valid_shape n k c hvc hk1
  obtain ⟨p, rfl, hp⟩ := permBlock_shape c0 rest t htc
  have hcnd : (c0 :: rest).Nodup := chain_lt_nodup _ hvc.1
  have hperm : (c0 :: p).Perm (c0 :: rest) := hp.cons c0
  refine ⟨hperm.nodup_iff.mpr hcnd, ?_⟩
  intro x hx
  simp only [List.tail_cons] at hx
  have hxrest : x ∈ rest := hp.mem_iff.mp hx
  have hlt : c0 < x :=
    (List.pairwise_cons.mp ((List.chain'_iff_pairwise).mp hvc.1)).1 x hxrest
  simp only [List.headI]
  omega

/-- C4 witness at `n = 4`, `k = 3`, state `[1, 2, 3]`. -/
theorem C4_witness :
    [1, 2, 3] ∈ runStatesNone 4 3 ∧ ([1, 2, 3] : List Nat).Nodup ∧
    ∀ x ∈ ([1, 2, 3] : List Nat).tail, ([1, 2, 3] : List Nat).headI ≤ x :=
  ⟨by decide,
    (C4_anchor_min_nodup 4 3 (by decide) (by decide) [1, 2, 3] (by decide)).1,
    (C4_anchor_min_nodup 4 3 (by decide) (by decide) [1, 2, 3] (by decide)).2⟩

/-- C5.  `CircularPlacement.get_components` on `m ≥ 1` columns returns `m`
unit-length 2D direction vectors: angle `[0]` for `m = 1`, angles
`[0, π/2]` (vectors `(1,0)` and `(0,1)`) for `m = 2`, and for `m ≥ 3` the
`m` angles `2πi/m`, evenly spaced over `[0, 2π)` starting at 0.  The
function is a pure function of the column count. -/
theorem C5_circular_components (m : Nat) (hm : 1 ≤ m) :
    (get_components m).length = m ∧
    (∀ v ∈ get_components m, v.1 ^ 2 + v.2 ^ 2 = 1) ∧
    (m = 1 → get_components m = [(1, 0)]) ∧
    (m = 2 → get_components m = [(1, 0), (0, 1)]) ∧
    (3 ≤ m → get_components m = (List.range m).map fun i : Nat =>
      (Real.cos (2 * Real.pi * (i : ℝ) / (m : ℝ)),
       Real.sin (2 * Real.pi * (i : ℝ) / (m : ℝ)))) := by
  refine ⟨?_, ?_, ?_, ?_, ?_⟩
  · unfold get_components axes_angle linspace_angles
    split_ifs with h1 h2
    · simp [h1]
    · simp [h2]
    · rw [List.length_map, List.length_map, List.length_range]
  · intro v hv
    obtain ⟨θ, _, rfl⟩ := List.mem_map.mp hv
    exact Real.cos_sq_add_sin_sq θ
  · intro h1
    subst h1
    unfold get_components axes_angle
    simp
  · intro h2
    subst h2
    unfold get_components axes_angle
    norm_num
  · intro h3
    unfold get_components axes_angle linspace_angles
    rw [if_neg (by omega), if_neg (by omega), List.map_map]
    rfl

/-- C5 witness at `m = 4`. -/
theorem C5_witness :
    1 ≤ (4 : Nat) ∧
    ((get_components 4).length = 4 ∧
    (∀ v ∈ get_components 4, v.1 ^ 2 + v.2 ^ 2 = 1) ∧
    ((4 : Nat) = 1 → get_components 4 = [(1, 0)]) ∧
    ((4 : Nat) = 2 → get_components 4 = [(1, 0), (0, 1)]) ∧
    (3 ≤ (4 : Nat) → get_components 4 = (List.range 4).map fun i : Nat =>
      (Real.cos (2 * Real.pi * (i : ℝ) / ((4 : Nat) : ℝ)),
       Real.sin (2 * Real.pi * (i : ℝ) / ((4 : Nat) : ℝ))))) :=
  ⟨by decide, C5_circular_components 4 (by decide)⟩

end OWLinearProjection

